import Mathlib

/-!
# Verification of `gopca` (GO-PCA)

Shallow embedding of the parts of `src/gopca/common.py` and
`src/gopca/go_pca_objects.py` relevant to the claims, with theorems
settling each claim.

Modelling conventions:
* numpy `float64` values are modelled as rationals (`ℚ`);
* `np.std` takes a square root; since every claim treats the square root
  symmetrically, it is passed as an explicit parameter `sqrtA : ℚ → ℚ`;
* division by zero follows Lean's `ℚ` convention (`x / 0 = 0`); the
  Python code likewise does not raise on a zero denominator (numpy emits
  a runtime warning and yields `nan`/`inf`), so in both semantics the
  computation continues and a vector is returned;
* fallible operations (`list.index` on a missing element, out-of-range
  row access) are modelled with `Option`.
-/

/-- Comparison of indices modelling `np.argsort(pvals, kind='mergesort')`:
a stable ascending argsort orders the (distinct) indices `i`
lexicographically by the key `(pvals[i], i)`. -/
def rIdx (pv : List ℚ) (i j : ℕ) : Prop :=
  pv.getD i 0 < pv.getD j 0 ∨ (pv.getD i 0 = pv.getD j 0 ∧ i ≤ j)

instance (pv : List ℚ) : DecidableRel (rIdx pv) := fun i j => by
  unfold rIdx; infer_instance

instance (pv : List ℚ) : IsTotal ℕ (rIdx pv) where
  total i j := by
    unfold rIdx
    rcases lt_trichotomy (pv.getD i 0) (pv.getD j 0) with h | h | h
    · exact Or.inl (Or.inl h)
    · rcases Nat.le_total i j with h2 | h2
      · exact Or.inl (Or.inr ⟨h, h2⟩)
      · exact Or.inr (Or.inr ⟨h.symm, h2⟩)
    · exact Or.inr (Or.inl h)

instance (pv : List ℚ) : IsTrans ℕ (rIdx pv) where
  trans i j k hij hjk := by
    unfold rIdx at *
    rcases hij with h1 | ⟨h1, h1'⟩
    · rcases hjk with h2 | ⟨h2, _⟩
      · exact Or.inl (h1.trans h2)
      · exact Or.inl (h2 ▸ h1)
    · rcases hjk with h2 | ⟨h2, h2'⟩
      · exact Or.inl (h1 ▸ h2)
      · exact Or.inr ⟨h1.trans h2, h1'.trans h2'⟩

/-- `a = np.argsort(pvals, kind='mergesort')` from `get_qvalues`
(`src/gopca/common.py`): the stable ascending argsort of the p-values. -/
def argsortAsc (pv : List ℚ) : List ℕ :=
  List.insertionSort (rIdx pv) (List.range pv.length)

/-- `a = a[::-1]`: the walk order of `get_qvalues`, largest p-value first. -/
def walkOrder (pv : List ℚ) : List ℕ :=
  (argsortAsc pv).reverse

/-- The candidate value `((pi_zero * pvals[i]) * n) / s` computed at each
step of the loop in `get_qvalues`. -/
def qcand (piZ nQ : ℚ) (pv : List ℚ) (i s : ℕ) : ℚ :=
  ((piZ * pv.getD i 0) * nQ) / (s : ℚ)

/-- The loop of `get_qvalues`:
`for i in a: q = min(((pi_zero*pvals[i])*n)/s, q); qvals[i] = q; s += 1`. -/
def qloop (piZ nQ : ℚ) (pv : List ℚ) : List ℕ → ℕ → ℚ → List ℚ → List ℚ
  | [], _, _, qv => qv
  | i :: rest, s, q, qv =>
    let q2 := min (qcand piZ nQ pv i s) q
    qloop piZ nQ pv rest (s + 1) q2 (qv.set i q2)

/-- `get_qvalues(pvals, pi_zero=1.0)` from `src/gopca/common.py`.
`np.empty(n)` is modelled as a zero-filled vector: the walk order is a
permutation of all indices, so every entry is overwritten. -/
def get_qvalues (pv : List ℚ) (piZ : ℚ) : List ℚ :=
  qloop piZ (pv.length : ℚ) pv (walkOrder pv) 1 1 (List.replicate pv.length 0)

lemma argsortAsc_perm (pv : List ℚ) :
    (argsortAsc pv).Perm (List.range pv.length) :=
  List.perm_insertionSort _ _

lemma argsortAsc_nodup (pv : List ℚ) : (argsortAsc pv).Nodup :=
  ((argsortAsc_perm pv).nodup_iff).2 (List.nodup_range _)

lemma argsortAsc_mem (pv : List ℚ) (i : ℕ) :
    i ∈ argsortAsc pv ↔ i < pv.length := by
  rw [(argsortAsc_perm pv).mem_iff, List.mem_range]

lemma argsortAsc_length (pv : List ℚ) :
    (argsortAsc pv).length = pv.length := by
  simpa using (argsortAsc_perm pv).length_eq

lemma argsortAsc_sorted (pv : List ℚ) :
    (argsortAsc pv).Pairwise (rIdx pv) :=
  List.sorted_insertionSort (rIdx pv) _

lemma walkOrder_nodup (pv : List ℚ) : (walkOrder pv).Nodup := by
  simpa [walkOrder] using argsortAsc_nodup pv

lemma walkOrder_mem (pv : List ℚ) (i : ℕ) :
    i ∈ walkOrder pv ↔ i < pv.length := by
  rw [walkOrder, List.mem_reverse]; exact argsortAsc_mem pv i

lemma walkOrder_length (pv : List ℚ) :
    (walkOrder pv).length = pv.length := by
  rw [walkOrder, List.length_reverse]; exact argsortAsc_length pv

lemma qloop_length (piZ nQ : ℚ) (pv : List ℚ) :
    ∀ (l : List ℕ) (s : ℕ) (q : ℚ) (qv : List ℚ),
      (qloop piZ nQ pv l s q qv).length = qv.length
  | [], _, _, _ => rfl
  | i :: rest, s, q, qv => by
    rw [qloop]
    rw [qloop_length piZ nQ pv rest (s + 1) _ _, List.length_set]

lemma qloop_get_not_mem (piZ nQ : ℚ) (pv : List ℚ) :
    ∀ (l : List ℕ) (s : ℕ) (q : ℚ) (qv : List ℚ) (i : ℕ), i ∉ l →
      (qloop piZ nQ pv l s q qv)[i]? = qv[i]?
  | [], _, _, _, _, _ => rfl
  | j :: rest, s, q, qv, i, hi => by
    rw [qloop]
    have hji : j ≠ i := fun h => hi (h ▸ List.mem_cons_self _ _)
    rw [qloop_get_not_mem piZ nQ pv rest (s + 1) _ _ i
      (fun h => hi (List.mem_cons_of_mem _ h))]
    exact List.getElem?_set_ne hji

/-- Every index in the remaining walk gets a final value bounded by the
current running minimum `q`. -/
lemma qloop_le (piZ nQ : ℚ) (pv : List ℚ) :
    ∀ (l : List ℕ) (s : ℕ) (q : ℚ) (qv : List ℚ) (i : ℕ),
      i ∈ l → l.Nodup → (∀ x ∈ l, x < qv.length) →
      ∃ b, (qloop piZ nQ pv l s q qv)[i]? = some b ∧ b ≤ q
  | j :: rest, s, q, qv, i, hi, hnd, hlt => by
    rw [qloop]
    have hjrest : j ∉ rest := (List.nodup_cons.1 hnd).1
    rcases List.mem_cons.1 hi with h | h
    · subst h
      refine ⟨min (qcand piZ nQ pv i s) q, ?_, min_le_right _ _⟩
      rw [qloop_get_not_mem piZ nQ pv rest (s + 1) _ _ i hjrest]
      exact List.getElem?_set_self (hlt i hi)
    · obtain ⟨b, hb, hble⟩ := qloop_le piZ nQ pv rest (s + 1)
        (min (qcand piZ nQ pv j s) q) (qv.set j _) i h (List.nodup_cons.1 hnd).2
        (fun x hx => by rw [List.length_set]; exact hlt x (List.mem_cons_of_mem _ hx))
      exact ⟨b, hb, hble.trans (min_le_right _ _)⟩

/-- Monotonicity along the walk: an index visited earlier receives a final
value at least as large as one visited later. -/
lemma qloop_mono (piZ nQ : ℚ) (pv : List ℚ) :
    ∀ (l : List ℕ) (s : ℕ) (q : ℚ) (qv : List ℚ) (u v : ℕ),
      l.Nodup → (∀ x ∈ l, x < qv.length) → u ∈ l → v ∈ l →
      l.indexOf u < l.indexOf v →
      ∃ a b, (qloop piZ nQ pv l s q qv)[u]? = some a ∧
             (qloop piZ nQ pv l s q qv)[v]? = some b ∧ b ≤ a
  | j :: rest, s, q, qv, u, v, hnd, hlt, hu, hv, huv => by
    have hjrest : j ∉ rest := (List.nodup_cons.1 hnd).1
    by_cases hju : u = j
    · subst hju
      have hvne : v ≠ u := by
        intro h; subst h; exact lt_irrefl _ huv
      have hvrest : v ∈ rest := by
        rcases List.mem_cons.1 hv with h | h
        · exact absurd h.symm (Ne.symm hvne)
        · exact h
      rw [qloop]
      obtain ⟨b, hb, hble⟩ := qloop_le piZ nQ pv rest (s + 1)
        (min (qcand piZ nQ pv u s) q) (qv.set u _) v hvrest (List.nodup_cons.1 hnd).2
        (fun x hx => by rw [List.length_set]; exact hlt x (List.mem_cons_of_mem _ hx))
      refine ⟨min (qcand piZ nQ pv u s) q, b, ?_, hb, hble⟩
      rw [qloop_get_not_mem piZ nQ pv rest (s + 1) _ _ u hjrest]
      exact List.getElem?_set_self (hlt u hu)
    · have hurest : u ∈ rest := by
        rcases List.mem_cons.1 hu with h | h
        · exact absurd h hju
        · exact h
      have hjv : v ≠ j := by
        intro h; subst h
        rw [List.indexOf_cons_self] at huv
        exact Nat.not_lt_zero _ huv
      have hvrest : v ∈ rest := by
        rcases List.mem_cons.1 hv with h | h
        · exact absurd h hjv
        · exact h
      rw [qloop]
      exact qloop_mono piZ nQ pv rest (s + 1) _ _ u v (List.nodup_cons.1 hnd).2
        (fun x hx => by rw [List.length_set]; exact hlt x (List.mem_cons_of_mem _ hx))
        hurest hvrest (by
          rw [List.indexOf_cons_ne _ (Ne.symm hju), List.indexOf_cons_ne _ (Ne.symm hjv)] at huv
          exact Nat.lt_of_succ_lt_succ huv)

/-- Every index of the walk gets a strictly positive final value, provided
all candidates are positive. -/
lemma qloop_pos (piZ nQ : ℚ) (pv : List ℚ) (hn : 0 < nQ) :
    ∀ (l : List ℕ) (s : ℕ) (q : ℚ) (qv : List ℚ) (i : ℕ),
      i ∈ l → l.Nodup → (∀ x ∈ l, x < qv.length) → 0 < q → 1 ≤ s →
      (∀ x ∈ l, 0 < piZ * pv.getD x 0) →
      ∃ b, (qloop piZ nQ pv l s q qv)[i]? = some b ∧ 0 < b
  | j :: rest, s, q, qv, i, hi, hnd, hlt, hq, hs, hc => by
    rw [qloop]
    have hjrest : j ∉ rest := (List.nodup_cons.1 hnd).1
    have hcand : 0 < qcand piZ nQ pv j s := by
      unfold qcand
      have hs' : (0 : ℚ) < (s : ℚ) := by
        exact_mod_cast Nat.lt_of_lt_of_le Nat.zero_lt_one hs
      exact div_pos (mul_pos (hc j (List.mem_cons_self _ _)) hn) hs'
    have hq2 : 0 < min (qcand piZ nQ pv j s) q := lt_min hcand hq
    rcases List.mem_cons.1 hi with h | h
    · subst h
      refine ⟨min (qcand piZ nQ pv i s) q, ?_, hq2⟩
      rw [qloop_get_not_mem piZ nQ pv rest (s + 1) _ _ i hjrest]
      exact List.getElem?_set_self (hlt i hi)
    · exact qloop_pos piZ nQ pv hn rest (s + 1) _ _ i h (List.nodup_cons.1 hnd).2
        (fun x hx => by rw [List.length_set]; exact hlt x (List.mem_cons_of_mem _ hx))
        hq2 (Nat.le_succ_of_le hs)
        (fun x hx => hc x (List.mem_cons_of_mem _ hx))

/-- In a list that is `Pairwise r`, an element `y` not reachable from
`x` by `r` cannot appear strictly after `x`. -/
lemma pairwise_indexOf_le {α : Type} [DecidableEq α] (r : α → α → Prop) :
    ∀ (l : List α), l.Pairwise r → ∀ x y, x ∈ l → y ∈ l → ¬ r x y →
      l.indexOf y ≤ l.indexOf x
  | [], _, x, _, hx, _, _ => absurd hx (List.not_mem_nil x)
  | h :: t, hp, x, y, hx, hy, hr => by
    rcases List.pairwise_cons.1 hp with ⟨hhd, ht⟩
    by_cases hyh : y = h
    · subst hyh
      rw [List.indexOf_cons_self]
      exact Nat.zero_le _
    · have hyt : y ∈ t := (List.mem_cons.1 hy).resolve_left hyh
      by_cases hxh : x = h
      · subst hxh
        exact absurd (hhd y hyt) hr
      · have hxt : x ∈ t := (List.mem_cons.1 hx).resolve_left hxh
        rw [List.indexOf_cons_ne _ (Ne.symm hyh), List.indexOf_cons_ne _ (Ne.symm hxh)]
        exact Nat.succ_le_succ (pairwise_indexOf_le r t ht x y hxt hyt hr)


/-- The position in the walk of the entry at position `k` of the ascending
argsort: reversing flips positions. -/
lemma walkOrder_indexOf (pv : List ℚ) (k : ℕ) (hk : k < (argsortAsc pv).length) :
    (walkOrder pv).indexOf ((argsortAsc pv).getD k 0) =
      (argsortAsc pv).length - 1 - k := by
  rw [List.getD_eq_getElem _ _ hk, walkOrder]
  have hb : (argsortAsc pv).length - 1 - k < (argsortAsc pv).reverse.length := by
    rw [List.length_reverse]; omega
  have hrev : (argsortAsc pv).reverse[(argsortAsc pv).length - 1 - k] =
      (argsortAsc pv)[k] := by
    rw [List.getElem_reverse]
    have hik : (argsortAsc pv).length - 1 - ((argsortAsc pv).length - 1 - k) = k := by
      omega
    simp only [hik]
  have h2 := List.indexOf_getElem (by
    rw [List.nodup_reverse]; exact argsortAsc_nodup pv)
    ((argsortAsc pv).length - 1 - k) hb
  rw [hrev] at h2
  exact h2

/-- C1: For every p-value vector, the q-values returned by `get_qvalues`
are monotone with the p-values: along the stable ascending argsort of the
p-values (the entries arranged in ascending order of p-value), the
corresponding q-values are non-decreasing. -/
theorem C1_qvalues_monotone (pv : List ℚ) (piZ : ℚ) (j k : ℕ)
    (hjk : j ≤ k) (hk : k < (argsortAsc pv).length) :
    (get_qvalues pv piZ).getD ((argsortAsc pv).getD j 0) 0 ≤
      (get_qvalues pv piZ).getD ((argsortAsc pv).getD k 0) 0 := by
  rcases Nat.eq_or_lt_of_le hjk with heq | hlt
  · subst heq; exact le_refl _
  have hj : j < (argsortAsc pv).length := Nat.lt_trans hlt hk
  have hidxu := walkOrder_indexOf pv k hk
  have hidxv := walkOrder_indexOf pv j hj
  have hun : (argsortAsc pv).getD k 0 < pv.length := by
    rw [List.getD_eq_getElem _ _ hk]
    exact (argsortAsc_mem pv _).1 (List.getElem_mem hk)
  have hvn : (argsortAsc pv).getD j 0 < pv.length := by
    rw [List.getD_eq_getElem _ _ hj]
    exact (argsortAsc_mem pv _).1 (List.getElem_mem hj)
  obtain ⟨aV, bV, haV, hbV, hba⟩ := qloop_mono piZ (pv.length : ℚ) pv
    (walkOrder pv) 1 1 (List.replicate pv.length 0)
    ((argsortAsc pv).getD k 0) ((argsortAsc pv).getD j 0)
    (walkOrder_nodup pv)
    (fun x hx => by rw [List.length_replicate]; exact (walkOrder_mem pv x).1 hx)
    ((walkOrder_mem pv _).2 hun) ((walkOrder_mem pv _).2 hvn)
    (by rw [hidxu, hidxv]; omega)
  unfold get_qvalues
  rw [List.getD_eq_getElem?_getD
        (qloop piZ (pv.length : ℚ) pv (walkOrder pv) 1 1 (List.replicate pv.length 0))
        ((argsortAsc pv).getD j 0) 0,
      List.getD_eq_getElem?_getD
        (qloop piZ (pv.length : ℚ) pv (walkOrder pv) 1 1 (List.replicate pv.length 0))
        ((argsortAsc pv).getD k 0) 0,
      haV, hbV]
  simpa using hba

/-- Witness for C1 at a concrete input. -/
theorem C1_qvalues_monotone_witness :
    ((0 : ℕ) ≤ 1 ∧ 1 < (argsortAsc [mkRat 1 2, mkRat 1 4]).length) ∧
    (get_qvalues [mkRat 1 2, mkRat 1 4] 1).getD
        ((argsortAsc [mkRat 1 2, mkRat 1 4]).getD 0 0) 0 ≤
      (get_qvalues [mkRat 1 2, mkRat 1 4] 1).getD
        ((argsortAsc [mkRat 1 2, mkRat 1 4]).getD 1 0) 0 :=
  ⟨⟨by decide, by decide⟩,
    C1_qvalues_monotone [mkRat 1 2, mkRat 1 4] 1 0 1 (by decide) (by decide)⟩

/-- C2 counterexample: the claim "every q-value is in (0, prior]" fails as
stated. At `pvals = [0, 1]` (entries in [0,1]) and prior `pi_zero = 1/2`,
the q-value of entry 0 is 0 (not strictly positive) and the q-value of
entry 1 is 1 (greater than the prior 1/2). -/
theorem C2_qvalues_range_cex :
    ¬ (0 < (get_qvalues [0, 1] (1/2)).getD 0 0) ∧
    ¬ ((get_qvalues [0, 1] (1/2)).getD 1 0 ≤ 1/2) := by
  have h : get_qvalues [0, 1] (1/2 : ℚ) = [0, 1] := by
    norm_num [get_qvalues, qloop, qcand, walkOrder, argsortAsc,
      List.insertionSort, List.orderedInsert, rIdx, List.replicate, List.set]
  rw [h]
  norm_num

/-- C2 (amended): for every p-value vector with entries in (0, 1] and
every prior `pi_zero ∈ (0, 1]`, every q-value returned by `get_qvalues`
is strictly greater than 0 and at most 1. -/
theorem C2_qvalues_range_amended (pv : List ℚ) (piZ : ℚ) (i : ℕ)
    (hi : i < pv.length) (hp : ∀ x ∈ pv, 0 < x ∧ x ≤ 1)
    (hpi : 0 < piZ) (hpi1 : piZ ≤ 1) :
    0 < (get_qvalues pv piZ).getD i 0 ∧ (get_qvalues pv piZ).getD i 0 ≤ 1 := by
  have hmem : i ∈ walkOrder pv := (walkOrder_mem pv i).2 hi
  have hbound : ∀ x ∈ walkOrder pv, x < (List.replicate pv.length (0:ℚ)).length :=
    fun x hx => by rw [List.length_replicate]; exact (walkOrder_mem pv x).1 hx
  obtain ⟨b, hb, hble⟩ := qloop_le piZ (pv.length : ℚ) pv (walkOrder pv) 1 1
    (List.replicate pv.length 0) i hmem (walkOrder_nodup pv) hbound
  obtain ⟨b2, hb2, hb2pos⟩ := qloop_pos piZ (pv.length : ℚ) pv
    (by exact_mod_cast Nat.lt_of_le_of_lt (Nat.zero_le i) hi)
    (walkOrder pv) 1 1 (List.replicate pv.length 0) i hmem
    (walkOrder_nodup pv) hbound one_pos (le_refl 1)
    (fun x hx => by
      have hxlen : x < pv.length := (walkOrder_mem pv x).1 hx
      rw [List.getD_eq_getElem pv 0 hxlen]
      exact mul_pos hpi (hp _ (List.getElem_mem hxlen)).1)
  rw [hb] at hb2
  have hbb : b = b2 := Option.some.inj hb2
  unfold get_qvalues
  rw [List.getD_eq_getElem?_getD, hb]
  exact ⟨by simpa [← hbb] using hb2pos, by simpa using hble⟩

/-- Witness for the amended C2 at a concrete input. -/
theorem C2_qvalues_range_amended_witness :
    ((0 : ℕ) < 2 ∧ (∀ x ∈ [mkRat 1 2, mkRat 1 4], 0 < x ∧ x ≤ 1) ∧
      (0 : ℚ) < 1 ∧ (1 : ℚ) ≤ 1) ∧
    (0 < (get_qvalues [mkRat 1 2, mkRat 1 4] 1).getD 0 0 ∧
      (get_qvalues [mkRat 1 2, mkRat 1 4] 1).getD 0 0 ≤ 1) :=
  ⟨⟨by decide, by decide, by decide, by decide⟩,
    C2_qvalues_range_amended [mkRat 1 2, mkRat 1 4] 1 0
      (by decide) (by decide) (by decide) (by decide)⟩

/-- C3 counterexample: `get_qvalues` performs no input validation. On the
empty vector it returns the empty vector, and on a vector containing the
value 2 (outside [0,1]) it returns a result, instead of failing with an
invalid-input error as the claim states. -/
theorem C3_no_validation_cex :
    get_qvalues [] 1 = [] ∧ get_qvalues [2] 1 = [1] := by
  constructor
  · rfl
  · norm_num [get_qvalues, qloop, qcand, walkOrder, argsortAsc,
      List.insertionSort, List.orderedInsert, rIdx]

/-- C3 (amended): `get_qvalues` performs no validity check: it returns a
q-value vector of the same length as its input on every input, including
the empty vector and vectors with entries outside [0, 1]. -/
theorem C3_no_validation (pv : List ℚ) (piZ : ℚ) :
    (get_qvalues pv piZ).length = pv.length := by
  unfold get_qvalues
  rw [qloop_length, List.length_replicate]

/-- C4 counterexample: the descending walk of `get_qvalues` visits tied
entries in reverse original order, not original order. For
`pvals = [1/2, 1/2]` the walk order is `[1, 0]`: the entry with the
larger input index receives the smaller rank `s`, refuting the claim that
the entry with the smaller input index is visited earlier. -/
theorem C4_stable_tie_cex :
    walkOrder [mkRat 1 2, mkRat 1 2] = [1, 0] ∧
    ¬ ((walkOrder [mkRat 1 2, mkRat 1 2]).indexOf 0 <
        (walkOrder [mkRat 1 2, mkRat 1 2]).indexOf 1) := by decide

/-- C4 (amended): the sort is stable in ascending order, but the walk is
its reversal, so among entries with equal p-values the entry with the
*larger* input index is visited earlier in the walk from largest to
smallest (receives the smaller rank `s`). -/
theorem C4_ties_reverse_order (pv : List ℚ) (i j : ℕ) (hij : i < j)
    (hj : j < pv.length) (hpe : pv.getD i 0 = pv.getD j 0) :
    (walkOrder pv).indexOf j < (walkOrder pv).indexOf i := by
  have hi : i < pv.length := Nat.lt_trans hij hj
  have hiw : i ∈ walkOrder pv := (walkOrder_mem pv i).2 hi
  have hjw : j ∈ walkOrder pv := (walkOrder_mem pv j).2 hj
  have hpw : (walkOrder pv).Pairwise (fun x y => rIdx pv y x) := by
    rw [walkOrder]
    exact List.pairwise_reverse.2 (argsortAsc_sorted pv)
  have hnr : ¬ rIdx pv j i := by
    intro h
    rcases h with h | ⟨_, hle⟩
    · rw [hpe] at h; exact lt_irrefl _ h
    · omega
  have hle := pairwise_indexOf_le (fun x y => rIdx pv y x) (walkOrder pv)
    hpw i j hiw hjw hnr
  have hne : (walkOrder pv).indexOf j ≠ (walkOrder pv).indexOf i := by
    intro h
    exact absurd ((List.indexOf_inj hjw hiw).1 h) (Nat.ne_of_gt hij)
  exact Nat.lt_of_le_of_ne hle hne

/-- Witness for the amended C4 at a concrete input. -/
theorem C4_ties_reverse_order_witness :
    ((0 : ℕ) < 1 ∧ 1 < ([mkRat 1 2, mkRat 1 2] : List ℚ).length ∧
      ([mkRat 1 2, mkRat 1 2] : List ℚ).getD 0 0 = [mkRat 1 2, mkRat 1 2].getD 1 0) ∧
    (walkOrder [mkRat 1 2, mkRat 1 2]).indexOf 1 <
      (walkOrder [mkRat 1 2, mkRat 1 2]).indexOf 0 :=
  ⟨⟨by decide, by decide, by decide⟩,
    C4_ties_reverse_order [mkRat 1 2, mkRat 1 2] 0 1 (by decide) (by decide) (by decide)⟩

/-- `GOPCAConfig.valid_attrs` from `src/gopca/go_pca_objects.py`. -/
def valid_attrs : List String :=
  ["mHG_X_frac", "mHG_X_min", "mHG_L", "pval_thresh",
   "mfe_pval_thresh", "mfe_thresh", "disable_local_filter",
   "disable_global_filter"]

/-- `GOPCAConfig.__init__(**kwargs)`: the keyword arguments are a Python
dict, modelled as a partial map. Unknown attributes are only warned
about; the `assert k in supplied_attrs` for every valid attribute is the
hard failure (`none`); on success the attribute dict is rebuilt from the
valid attributes only (`dict([k, kwargs[k]] for k in valid_attrs)`), so
unknown keys are dropped. -/
def GOPCAConfigInit {α : Type} (kwargs : String → Option α) :
    Option (String → Option α) :=
  if valid_attrs.all (fun k => (kwargs k).isSome)
  then some (fun k => if k ∈ valid_attrs then kwargs k else none)
  else none

/-- C5: constructing a `GOPCAConfig` fails exactly when some recognized
parameter is missing; with all recognized parameters present it succeeds
and the resulting config holds exactly the recognized parameters
(unrecognized ones are dropped). -/
theorem C5_config_validation {α : Type} (kwargs : String → Option α) :
    (GOPCAConfigInit kwargs = none ↔ ∃ k ∈ valid_attrs, kwargs k = none) ∧
    (∀ c, GOPCAConfigInit kwargs = some c →
      (∀ k ∈ valid_attrs, c k = kwargs k) ∧
      (∀ k, k ∉ valid_attrs → c k = none)) := by
  constructor
  · constructor
    · intro hnone
      unfold GOPCAConfigInit at hnone
      by_cases h : valid_attrs.all (fun k => (kwargs k).isSome)
      · rw [if_pos h] at hnone
        exact absurd hnone (by simp)
      · rw [List.all_eq_true] at h
        push_neg at h
        obtain ⟨k, hk, hks⟩ := h
        refine ⟨k, hk, ?_⟩
        simpa [Option.isSome_iff_ne_none] using hks
    · rintro ⟨k, hk, hknone⟩
      unfold GOPCAConfigInit
      rw [if_neg]
      intro hall
      rw [List.all_eq_true] at hall
      have h2 := hall k hk
      rw [hknone] at h2
      simp at h2
  · intro c hc
    unfold GOPCAConfigInit at hc
    by_cases h : valid_attrs.all (fun k => (kwargs k).isSome)
    · rw [if_pos h] at hc
      have hceq := Option.some.inj hc
      constructor
      · intro k hk
        rw [← hceq]
        simp [hk]
      · intro k hk
        rw [← hceq]
        simp [hk]
    · rw [if_neg h] at hc
      exact absurd hc (by simp)

/-- A concrete keyword-argument dictionary supplying every recognized
parameter, for the C5 witness. -/
def kwargsAll : String → Option ℚ :=
  fun k => if k ∈ valid_attrs then some 1 else none

/-- Witness for C5 at a concrete input: construction succeeds, a
recognized key is kept, an unrecognized key is dropped. -/
theorem C5_config_validation_witness :
    (fun k => if k ∈ valid_attrs then kwargsAll k else none) "mHG_L" =
        kwargsAll "mHG_L" ∧
    (fun k => if k ∈ valid_attrs then kwargsAll k else none) "bogus" = none :=
  ⟨((C5_config_validation kwargsAll).2
      (fun k => if k ∈ valid_attrs then kwargsAll k else none) rfl).1
      "mHG_L" (by simp [valid_attrs]),
    ((C5_config_validation kwargsAll).2
      (fun k => if k ∈ valid_attrs then kwargsAll k else none) rfl).2
      "bogus" (by simp [valid_attrs])⟩

/-- Abstraction of the external enrichment-record object (produced by the
mHG enrichment test outside this repository): the only aspects
`GOPCASignature.__eq__` and `__repr__` use are its identity and its
`repr` string. -/
structure EnrichmentRec where
  reprStr : String
deriving DecidableEq

/-- `GOPCASignature` from `src/gopca/go_pca_objects.py`: member genes,
principal component `pc` (sign encodes ranking direction), maximum fold
enrichment `mfe`, the enrichment record, and the label. -/
structure GOPCASignature where
  genes : List String
  pc : Int
  mfe : ℚ
  enrichment : EnrichmentRec
  label : String
deriving DecidableEq

/-- Python `'%.1f' % x`: fixed-point rendering with one decimal digit
(Python rounds the double half-to-even on its decimal expansion; the
rounding mode at exact ties is immaterial to the claims). -/
def format1f (q : ℚ) : String :=
  let r : Int := round (q * 10)
  (if r < 0 then "-" else "") ++ toString (r.natAbs / 10) ++ "." ++
    toString (r.natAbs % 10)

/-- `GOPCASignature.__repr__`:
`'<GOPCASignature: label="%s", pc=%d, mfe=%.1f; %s>'
  % (self.label, self.pc, self.mfe, repr(self.enrichment))`. -/
def reprSig (s : GOPCASignature) : String :=
  "<GOPCASignature: label=\"" ++ s.label ++ "\", pc=" ++ toString s.pc ++
    ", mfe=" ++ format1f s.mfe ++ "; " ++ s.enrichment.reprStr ++ ">"

/-- `GOPCASignature.__eq__(self, other)`: for two signatures (same type),
equality of the `repr` strings. -/
def sigEq (a b : GOPCASignature) : Bool :=
  reprSig a == reprSig b

/-- C6 counterexample: `==` does not imply agreement on the
fold-enrichment field. Two signatures agreeing on label, pc and
enrichment record but with mfe 1.01 versus 1.02 have identical `repr`
strings (both render `mfe=1.0`), so they compare equal while their
fold-enrichment values differ. -/
theorem C6_sig_eq_cex :
    sigEq ⟨[], 1, 101/100, ⟨"E"⟩, "L"⟩ ⟨[], 1, 51/50, ⟨"E"⟩, "L"⟩ = true ∧
    ¬ ((101 : ℚ)/100 = 51/50) := by
  constructor
  · have h1 : format1f (101/100) = "1.0" := by
      unfold format1f
      rw [show round ((101:ℚ)/100 * 10) = 10 from by norm_num [round_eq]]
      rfl
    have h2 : format1f (51/50) = "1.0" := by
      unfold format1f
      rw [show round ((51:ℚ)/50 * 10) = 10 from by norm_num [round_eq]]
      rfl
    simp [sigEq, reprSig, h1, h2]
  · norm_num

/-- C6 (amended): signature equality is comparison of `repr` strings;
agreement on all four semantic fields (label, pc, mfe, enrichment
record) implies `==`, but the converse fails because the
fold-enrichment is rendered with one decimal digit. -/
theorem C6_sig_eq_amended (a b : GOPCASignature) (h1 : a.label = b.label)
    (h2 : a.pc = b.pc) (h3 : a.mfe = b.mfe)
    (h4 : a.enrichment = b.enrichment) :
    sigEq a b = true := by
  unfold sigEq reprSig
  rw [h1, h2, h3, h4]
  exact beq_self_eq_true _

/-- Witness for the amended C6 at concrete inputs (the gene sets differ,
but the four compared fields agree). -/
theorem C6_sig_eq_amended_witness :
    sigEq ⟨[], 2, 3, ⟨"E"⟩, "X"⟩ ⟨["g"], 2, 3, ⟨"E"⟩, "X"⟩ = true :=
  C6_sig_eq_amended ⟨[], 2, 3, ⟨"E"⟩, "X"⟩ ⟨["g"], 2, 3, ⟨"E"⟩, "X"⟩
    rfl rfl rfl rfl

/-- Minimal model of a 2-d `numpy.ndarray`: an explicit shape
(`shape[0]`, `shape[1]`) plus the entries; the shape is what
`GOPCAResult.__init__` checks. -/
structure NDArr where
  rows : ℕ
  cols : ℕ
  data : ℕ → ℕ → ℚ

/-- `GOPCAResult` from `src/gopca/go_pca_objects.py`: config, gene list,
sample list, loadings matrix `W`, accepted signatures, and the
signature-by-sample score matrix `S`. -/
structure GOPCAResult where
  config : String → Option ℚ
  genes : List String
  samples : List String
  W : NDArr
  signatures : List GOPCASignature
  S : NDArr

/-- `GOPCAResult.__init__`: the `assert` statements
`W.shape[0] == len(genes)`, `S.shape[0] == len(signatures)`,
`S.shape[1] == len(samples)`; a failed assert aborts construction
(`none`). The `isinstance` asserts are type-level and hold by
construction in the embedding. -/
def mkGOPCAResult (config : String → Option ℚ) (genes samples : List String)
    (W : NDArr) (signatures : List GOPCASignature) (S : NDArr) :
    Option GOPCAResult :=
  if W.rows = genes.length ∧ S.rows = signatures.length ∧
      S.cols = samples.length
  then some ⟨config, genes, samples, W, signatures, S⟩
  else none

/-- C9: every successfully constructed `GOPCAResult` satisfies the shape
invariants (loadings rows = gene count, score rows = signature count,
score columns = sample count), and construction aborts on any
mismatch. -/
theorem C9_result_shape_invariants (config : String → Option ℚ)
    (genes samples : List String) (W : NDArr)
    (signatures : List GOPCASignature) (S : NDArr) :
    (∀ r, mkGOPCAResult config genes samples W signatures S = some r →
      r.W.rows = r.genes.length ∧ r.S.rows = r.signatures.length ∧
        r.S.cols = r.samples.length) ∧
    (¬ (W.rows = genes.length ∧ S.rows = signatures.length ∧
        S.cols = samples.length) →
      mkGOPCAResult config genes samples W signatures S = none) := by
  constructor
  · intro r hr
    unfold mkGOPCAResult at hr
    by_cases h : W.rows = genes.length ∧ S.rows = signatures.length ∧
        S.cols = samples.length
    · rw [if_pos h] at hr
      cases Option.some.inj hr
      exact h
    · rw [if_neg h] at hr
      exact absurd hr (by simp)
  · intro h
    unfold mkGOPCAResult
    rw [if_neg h]

/-- Witness for C9 at a concrete (empty) input. -/
theorem C9_result_shape_invariants_witness :
    (⟨fun _ => none, [], [], ⟨0, 0, fun _ _ => 0⟩, [],
        ⟨0, 0, fun _ _ => 0⟩⟩ : GOPCAResult).W.rows =
      (⟨fun _ => none, [], [], ⟨0, 0, fun _ _ => 0⟩, [],
          ⟨0, 0, fun _ _ => 0⟩⟩ : GOPCAResult).genes.length ∧
    (⟨fun _ => none, [], [], ⟨0, 0, fun _ _ => 0⟩, [],
        ⟨0, 0, fun _ _ => 0⟩⟩ : GOPCAResult).S.rows =
      (⟨fun _ => none, [], [], ⟨0, 0, fun _ _ => 0⟩, [],
          ⟨0, 0, fun _ _ => 0⟩⟩ : GOPCAResult).signatures.length ∧
    (⟨fun _ => none, [], [], ⟨0, 0, fun _ _ => 0⟩, [],
        ⟨0, 0, fun _ _ => 0⟩⟩ : GOPCAResult).S.cols =
      (⟨fun _ => none, [], [], ⟨0, 0, fun _ _ => 0⟩, [],
          ⟨0, 0, fun _ _ => 0⟩⟩ : GOPCAResult).samples.length :=
  (C9_result_shape_invariants (fun _ => none) [] [] ⟨0, 0, fun _ _ => 0⟩ []
    ⟨0, 0, fun _ _ => 0⟩).1 _ rfl

/-- `np.mean` of a vector (sum over length; 0-length gives the junk value
0 where numpy gives `nan` with a warning — both continue). -/
def meanQ (l : List ℚ) : ℚ := l.sum / (l.length : ℚ)

/-- `np.std(l, ddof=1)`: square root of the bias-corrected variance; the
square root is the abstract parameter `sqrtA`. A zero or undefined
denominator flows through as a junk value, as numpy's `nan` does. -/
def stdDdof1 (sqrtA : ℚ → ℚ) (l : List ℚ) : ℚ :=
  sqrtA ((l.map (fun x => (x - meanQ l) ^ 2)).sum / ((l.length : ℚ) - 1))

/-- `get_standardized(e)` from `src/gopca/common.py`:
`e = e.copy(); e -= np.mean(e); e /= np.std(e, ddof=1); return e`
(the std is taken of the already centred vector, as in the source). -/
def get_standardized (sqrtA : ℚ → ℚ) (e : List ℚ) : List ℚ :=
  let c := e.map (fun x => x - meanQ e)
  c.map (fun x => x / stdDdof1 sqrtA c)

/-- `genes.index(g)`: raises `ValueError` when `g` is absent (`none`).
The robust variant uses `misc.bisect_index` from the external
`genometools` library, which returns the same index for a gene present in
the (sorted) gene list and raises otherwise; both are modelled by this
lookup. -/
def idxOfGene (genes : List String) (g : String) : Option ℕ :=
  if g ∈ genes then some (genes.indexOf g) else none

/-- Fetch the expression row of one signature gene:
`E[genes.index(g), :]` (an out-of-range row is an `IndexError`). -/
def rowFetch (genes : List String) (E : List (List ℚ)) (g : String) :
    Option (List ℚ) :=
  (idxOfGene genes g).bind (fun idx => E[idx]?)

/-- Fetch all signature rows (the loop filling the matrix `S`); any
failed lookup aborts the call (Python exception). -/
def fetchRows (genes : List String) (E : List (List ℚ)) :
    List String → Option (List (List ℚ))
  | [] => some []
  | g :: gs =>
    match rowFetch genes E g, fetchRows genes E gs with
    | some r, some rs => some (r :: rs)
    | _, _ => none

/-- `np.mean(S, axis=0)` over a matrix given as a list of rows, with the
column count `n` passed explicitly (numpy takes it from the shape). -/
def colMean (S : List (List ℚ)) (n : ℕ) : List ℚ :=
  (List.range n).map
    (fun j => (S.map (fun r => r.getD j 0)).sum / (S.length : ℚ))

/-- `get_signature_expression(genes, E, sig_genes)` from
`src/gopca/common.py`: per-gene z-scores (centre, divide by
`np.std(·, ddof=1)` of the centred row), then the mean across the
signature genes. -/
def get_signature_expression (sqrtA : ℚ → ℚ) (genes : List String)
    (E : List (List ℚ)) (sig_genes : List String) : Option (List ℚ) :=
  match fetchRows genes E sig_genes with
  | none => none
  | some rows =>
    let S := rows.map (fun e =>
      let c := e.map (fun x => x - meanQ e)
      c.map (fun x => x / stdDdof1 sqrtA c))
    some (colMean S (E.headD []).length)

/-- `np.median`: middle element of the ascending sort (mean of the two
middle elements for even length; the empty median is numpy's `nan` with
a warning — junk value 0 here, execution continues in both). -/
def medianQ (l : List ℚ) : ℚ :=
  let s := List.insertionSort (fun a b : ℚ => a ≤ b) l
  if l.length = 0 then 0
  else if l.length % 2 = 1 then s.getD (l.length / 2) 0
  else (s.getD (l.length / 2 - 1) 0 + s.getD (l.length / 2) 0) / 2

/-- `get_signature_expression_robust(genes, E, sig_genes)` from
`src/gopca/common.py`: median/MAD standardization with
`std = 1.4826 * mad` (the float constant 1.4826 as an exact rational). -/
def get_signature_expression_robust (genes : List String)
    (E : List (List ℚ)) (sig_genes : List String) : Option (List ℚ) :=
  match fetchRows genes E sig_genes with
  | none => none
  | some rows =>
    let S := rows.map (fun e =>
      let med := medianQ e
      let mad := medianQ (e.map (fun x => |x - med|))
      let std := (14826 / 10000 : ℚ) * mad
      e.map (fun x => (x - med) / std))
    some (colMean S (E.headD []).length)

/-- C7 counterexample: neither calculator fails on degenerate input. On a
1-gene, 1-sample matrix (standard-deviation and MAD denominators both
zero) each returns a score vector instead of raising a degenerate-input
error; likewise on a zero-variance row with 2 samples. -/
theorem C7_no_degenerate_check_cex :
    (get_signature_expression id ["g"] [[5]] ["g"]).isSome = true ∧
    (get_signature_expression_robust ["g"] [[5]] ["g"]).isSome = true ∧
    (get_signature_expression id ["g", "h"] [[3, 3], [1, 2]] ["g"]).isSome
      = true :=
  ⟨rfl, rfl, rfl⟩

/-- C7 (amended): the calculators perform no degenerate-input check.
Whenever every signature gene resolves to an expression row, both return
a score vector of sample-count length, regardless of the number of
samples or of zero variance; zero denominators flow into the returned
values (in numpy as `nan`/`inf` with only a runtime warning). -/
theorem C7_no_degenerate_check (sqrtA : ℚ → ℚ) (genes : List String)
    (E : List (List ℚ)) (sig_genes : List String) (rows : List (List ℚ))
    (h : fetchRows genes E sig_genes = some rows) :
    ∃ v w, get_signature_expression sqrtA genes E sig_genes = some v ∧
      v.length = (E.headD []).length ∧
      get_signature_expression_robust genes E sig_genes = some w ∧
      w.length = (E.headD []).length := by
  unfold get_signature_expression get_signature_expression_robust
  rw [h]
  exact ⟨_, _, rfl, by simp [colMean], rfl, by simp [colMean]⟩

/-- Witness for the amended C7 at a concrete degenerate (1-sample)
input. -/
theorem C7_no_degenerate_check_witness :
    fetchRows ["g"] [[(5:ℚ)]] ["g"] = some [[(5:ℚ)]] ∧
    (∃ v w, get_signature_expression id ["g"] [[(5:ℚ)]] ["g"] = some v ∧
      v.length = ([[(5:ℚ)]].headD []).length ∧
      get_signature_expression_robust ["g"] [[(5:ℚ)]] ["g"] = some w ∧
      w.length = ([[(5:ℚ)]].headD []).length) :=
  ⟨rfl, C7_no_degenerate_check id ["g"] [[(5:ℚ)]] ["g"] [[(5:ℚ)]] rfl⟩

/-- The column mean of a single-row matrix is the row itself
(`np.mean` over one row divides each entry by 1). -/
lemma colMean_singleton (r : List ℚ) : colMean [r] r.length = r := by
  unfold colMean
  refine List.ext_getElem (by simp) ?_
  intro i h1 h2
  simp only [List.getElem_map, List.getElem_range, List.map_cons,
    List.map_nil, List.sum_cons, List.sum_nil, List.length_cons,
    List.length_nil]
  rw [List.getD_eq_getElem r 0 h2]
  norm_num

/-- C8: for a one-gene signature `[g]` with `g` present in the gene list,
`get_signature_expression` returns exactly `get_standardized` of that
gene's expression row. -/
theorem C8_single_gene_roundtrip (sqrtA : ℚ → ℚ) (genes : List String)
    (E : List (List ℚ)) (g : String) (row : List ℚ)
    (hg : g ∈ genes) (hrow : E[genes.indexOf g]? = some row)
    (hrect : row.length = (E.headD []).length) (hn : 2 ≤ row.length) :
    get_signature_expression sqrtA genes E [g] =
      some (get_standardized sqrtA row) := by
  have hfetch : fetchRows genes E [g] = some [row] := by
    unfold fetchRows rowFetch idxOfGene
    rw [if_pos hg]
    simp [hrow, fetchRows]
  unfold get_signature_expression
  rw [hfetch]
  show some (colMean [get_standardized sqrtA row] (E.headD []).length) =
    some (get_standardized sqrtA row)
  have hlen : (get_standardized sqrtA row).length = (E.headD []).length := by
    rw [← hrect]
    unfold get_standardized
    simp
  rw [← hlen]
  exact congrArg some (colMean_singleton _)

/-- Witness for C8 at a concrete input. -/
theorem C8_single_gene_roundtrip_witness :
    ("g" ∈ ["g"] ∧ 2 ≤ ([(1:ℚ), 2] : List ℚ).length) ∧
    get_signature_expression id ["g"] [[(1:ℚ), 2]] ["g"] =
      some (get_standardized id [(1:ℚ), 2]) :=
  ⟨⟨by decide, by decide⟩,
    C8_single_gene_roundtrip id ["g"] [[(1:ℚ), 2]] "g" [(1:ℚ), 2]
      (by decide) rfl (by decide) (by decide)⟩

/-- A heap of numpy arrays, for the mutation model of `get_standardized`:
array references are indices into the store. -/
abbrev Store := List (List ℚ)

/-- `get_standardized` with explicit array mutation: `e = e.copy()`
allocates a fresh array at the end of the store, and the in-place
`e -= np.mean(e)` and `e /= np.std(e, ddof=1)` update that copy; the
returned reference is the copy's index. -/
def get_standardized_st (sqrtA : ℚ → ℚ) (st : Store) (r : ℕ) :
    Store × ℕ :=
  let rc := st.length
  let st1 := st ++ [st.getD r []]
  let e1 := (st1.getD rc []).map (fun x => x - meanQ (st1.getD rc []))
  let st2 := st1.set rc e1
  let e2 := (st2.getD rc []).map (fun x => x / stdDdof1 sqrtA (st2.getD rc []))
  let st3 := st2.set rc e2
  (st3, rc)

/-- C10: `get_standardized` never mutates its argument: the input array
holds the same values after the call, the returned array is a freshly
allocated one distinct from the input, and it holds exactly the
standardized values of the input. -/
theorem C10_no_mutation (sqrtA : ℚ → ℚ) (st : Store) (r : ℕ)
    (h : r < st.length) :
    ((get_standardized_st sqrtA st r).1)[r]? = st[r]? ∧
    (get_standardized_st sqrtA st r).2 ≠ r ∧
    ((get_standardized_st sqrtA st r).1)[(get_standardized_st sqrtA st r).2]?
      = some (get_standardized sqrtA (st.getD r [])) := by
  have hne : st.length ≠ r := Nat.ne_of_gt h
  set e0 : List ℚ := st.getD r [] with he0
  set st1 : Store := st ++ [e0] with hst1
  have hg0 : st1.getD st.length [] = e0 := by
    rw [hst1, List.getD_eq_getElem?_getD,
      List.getElem?_append_right (le_refl _)]
    simp
  set e1 : List ℚ :=
    (st1.getD st.length []).map
      (fun x => x - meanQ (st1.getD st.length [])) with he1
  set st2 : Store := st1.set st.length e1 with hst2
  have hlen1 : st.length < st1.length := by rw [hst1]; simp
  have hg1 : st2.getD st.length [] = e1 := by
    rw [hst2, List.getD_eq_getElem?_getD, List.getElem?_set_self hlen1]
    rfl
  set e2 : List ℚ :=
    (st2.getD st.length []).map
      (fun x => x / stdDdof1 sqrtA (st2.getD st.length [])) with he2
  set st3 : Store := st2.set st.length e2 with hst3
  have hmain : get_standardized_st sqrtA st r = (st3, st.length) := rfl
  rw [hmain]
  refine ⟨?_, hne, ?_⟩
  · show st3[r]? = st[r]?
    rw [hst3, List.getElem?_set_ne hne, hst2, List.getElem?_set_ne hne,
      hst1, List.getElem?_append_left h]
  · show st3[st.length]? = some (get_standardized sqrtA e0)
    have hlen2 : st.length < st2.length := by
      rw [hst2, List.length_set]; exact hlen1
    rw [hst3, List.getElem?_set_self hlen2]
    congr 1
    rw [he2, hg1, he1, hg0]
    rfl

/-- Witness for C10 at a concrete store holding one array. -/
theorem C10_no_mutation_witness :
    (0 < ([[(1:ℚ), 2]] : Store).length) ∧
    (((get_standardized_st id [[(1:ℚ), 2]] 0).1)[0]? = [[(1:ℚ), 2]][0]? ∧
      (get_standardized_st id [[(1:ℚ), 2]] 0).2 ≠ 0 ∧
      ((get_standardized_st id [[(1:ℚ), 2]] 0).1)[
          (get_standardized_st id [[(1:ℚ), 2]] 0).2]?
        = some (get_standardized id (([[(1:ℚ), 2]] : Store).getD 0 []))) :=
  ⟨by decide, C10_no_mutation id [[(1:ℚ), 2]] 0 (by decide)⟩
